import Mathlib

/-!
Verification of the *kellner* package-repository server against its
natural-language specification.  The Go sources are shallowly embedded:
byte strings become `List Char` (one `Char` per byte), maps become
association lists, fallible operations return `Except`, and the
concurrency of the worker pool becomes an explicit step relation.
-/

set_option autoImplicit false

namespace Kellner

/-! ## Identity normalizer (src/x509.go) -/

/-- One `pkix.AttributeTypeAndValue`: the attribute's object identifier
(`Type`, a sequence of integers) and its value (`Value`, a byte string). -/
structure AttributeTypeAndValue where
  attrType : List Nat
  value : List Char
deriving DecidableEq

/-- Byte class accepted unchanged by `cleanPkixNameBytes`:
`[A-Za-z0-9_-]` (src/x509.go lines 117-130). -/
def isCleanChar (c : Char) : Bool :=
  (decide ('0' ≤ c) && decide (c ≤ '9')) ||
  (decide ('a' ≤ c) && decide (c ≤ 'z')) ||
  (decide ('A' ≤ c) && decide (c ≤ 'Z')) ||
  c == '_' || c == '-'

/-- The per-byte action of `cleanPkixNameBytes`: keep `[A-Za-z0-9_-]`,
replace anything else with an underscore. -/
def cleanChar (c : Char) : Char :=
  if isCleanChar c then c else '_'

/-- `cleanPkixNameBytes` (src/x509.go): replace any byte outside
`[A-Za-z0-9_-]` by `_`.  The Go code mutates a slice in place; the
embedding maps the pure per-byte function over the bytes. -/
def cleanPkixNameBytes (inBytes : List Char) : List Char :=
  inBytes.map cleanChar

/-- The `oidToKeys` lookup table of src/x509.go: the nine recognized
object identifiers and their short key names. -/
def oidToKeys : List ((Nat × Nat × Nat × Nat) × List Char) :=
  [((2, 5, 4, 6), "C".data),
   ((2, 5, 4, 10), "O".data),
   ((2, 5, 4, 11), "OU".data),
   ((2, 5, 4, 3), "CN".data),
   ((2, 5, 4, 5), "SN".data),
   ((2, 5, 4, 7), "L".data),
   ((2, 5, 4, 8), "P".data),
   ((2, 5, 4, 9), "S".data),
   ((2, 5, 4, 17), "PC".data)]

/-- The length-4 check plus component-wise comparison performed by the
inner loop of `typeValsToBytes` for one table row. -/
def oidMatches (t : List Nat) (oid : Nat × Nat × Nat × Nat) : Bool :=
  match t with
  | [a, b, c, d] =>
    decide (a = oid.1) && decide (b = oid.2.1) &&
    decide (c = oid.2.2.1) && decide (d = oid.2.2.2)
  | _ => false

/-- The linear scan of `oidToKeys` in `typeValsToBytes`; the key stays
`""` (here `[]`) when no row matches. -/
def findKey (t : List Nat) : List ((Nat × Nat × Nat × Nat) × List Char) → List Char
  | [] => []
  | (oid, key) :: rest => if oidMatches t oid then key else findKey t rest

/-- The buffer-accumulating loop of `typeValsToBytes` (src/x509.go lines
80-115): skip attributes with no recognized key; otherwise write a comma
when the buffer is non-empty, then `key=value`, cleaning exactly the
value bytes when `cleanValues` is set. -/
def typeValsToBytesAux (cleanValues : Bool) (buf : List Char) :
    List AttributeTypeAndValue → List Char
  | [] => buf
  | entry :: rest =>
    if findKey entry.attrType oidToKeys = [] then
      typeValsToBytesAux cleanValues buf rest
    else
      typeValsToBytesAux cleanValues
        (buf ++ (if buf.length > 0 then [','] else []) ++
          findKey entry.attrType oidToKeys ++ ['='] ++
          (if cleanValues then cleanPkixNameBytes entry.value else entry.value)) rest

/-- `typeValsToBytes` (src/x509.go): serialize a `pkix.Name`'s attribute
list as `key1=value1,key2=value2,...` over the recognized identifiers. -/
def typeValsToBytes (names : List AttributeTypeAndValue) (cleanValues : Bool) : List Char :=
  typeValsToBytesAux cleanValues [] names

/-- `clientIdByName` (src/x509.go): the normalized identity string of a
certificate subject, with value cleaning enabled. -/
def clientIdByName (name : List AttributeTypeAndValue) : List Char :=
  typeValsToBytes name true

/-! Spec-side restatement of the identity derivation, used to compare the
source embedding with the specification's wording. -/

/-- The retained `key=value` pieces as the specification describes them:
iterate the attributes in stored order, drop attributes whose identifier
is not in the table, and sanitize each retained value byte-wise. -/
def specPieces (names : List AttributeTypeAndValue) : List (List Char) :=
  names.filterMap (fun e =>
    if findKey e.attrType oidToKeys = [] then none
    else some (findKey e.attrType oidToKeys ++ ['='] ++ e.value.map cleanChar))

/-- Joining with commas, with no leading or trailing separator, as the
specification words it. -/
def joinComma : List (List Char) → List Char
  | [] => []
  | [p] => p
  | p :: q :: rest => p ++ ',' :: joinComma (q :: rest)

/-- Characters the specification permits in a derived identity:
`[A-Za-z0-9_=,-]`. -/
def allowedChar (c : Char) : Bool :=
  isCleanChar c || c == '=' || c == ','

/-- The tail of a comma join: a comma before each further piece. -/
def commaPieces : List (List Char) → List Char
  | [] => []
  | p :: rest => ',' :: (p ++ commaPieces rest)

theorem joinComma_cons_eq (p : List Char) (ps : List (List Char)) :
    joinComma (p :: ps) = p ++ commaPieces ps := by
  induction ps generalizing p with
  | nil => simp [joinComma, commaPieces]
  | cons q rest ih => simp [joinComma, commaPieces, ih]

theorem typeValsToBytesAux_ne_nil (names : List AttributeTypeAndValue) :
    ∀ buf : List Char, buf ≠ [] →
      typeValsToBytesAux true buf names = buf ++ commaPieces (specPieces names) := by
  induction names with
  | nil => intro buf _; simp [typeValsToBytesAux, specPieces, commaPieces]
  | cons e rest ih =>
    intro buf hbuf
    by_cases hk : findKey e.attrType oidToKeys = []
    · rw [typeValsToBytesAux, if_pos hk, ih buf hbuf]
      simp [specPieces, hk]
    · rw [typeValsToBytesAux, if_neg hk]
      have hlen : buf.length > 0 := List.length_pos.mpr hbuf
      rw [if_pos hlen]
      rw [ih _ (by simp)]
      simp [specPieces, hk, commaPieces, cleanPkixNameBytes]

theorem typeValsToBytes_eq_spec (names : List AttributeTypeAndValue) :
    typeValsToBytes names true = joinComma (specPieces names) := by
  induction names with
  | nil => simp [typeValsToBytes, typeValsToBytesAux, specPieces, joinComma]
  | cons e rest ih =>
    by_cases hk : findKey e.attrType oidToKeys = []
    · rw [typeValsToBytes, typeValsToBytesAux, if_pos hk]
      rw [typeValsToBytes] at ih
      rw [ih]
      simp [specPieces, hk]
    · rw [typeValsToBytes, typeValsToBytesAux, if_neg hk]
      have h0 : ¬(([] : List Char).length > 0) := by simp
      rw [if_neg h0]
      rw [typeValsToBytesAux_ne_nil rest _ (by simp)]
      simp [specPieces, hk, joinComma_cons_eq, cleanPkixNameBytes]

theorem cleanChar_allowed (c : Char) : allowedChar (cleanChar c) = true := by
  by_cases h : isCleanChar c = true
  · simp [cleanChar, h, allowedChar]
  · simp only [cleanChar, h, if_false, Bool.not_eq_true] at *
    rw [if_neg (by simp [h])]
    decide

theorem findKey_allowed (t : List Nat)
    (table : List ((Nat × Nat × Nat × Nat) × List Char))
    (htab : ∀ pr ∈ table, ∀ c ∈ pr.2, allowedChar c = true) :
    ∀ c ∈ findKey t table, allowedChar c = true := by
  induction table with
  | nil => intro c hc; simp [findKey] at hc
  | cons pr rest ih =>
    obtain ⟨oid, key⟩ := pr
    intro c hc
    rw [findKey] at hc
    by_cases hm : oidMatches t oid = true
    · rw [if_pos hm] at hc
      exact htab (oid, key) (by simp) c hc
    · rw [if_neg hm] at hc
      exact ih (fun q hq => htab q (List.mem_cons_of_mem _ hq)) c hc

theorem specPieces_allowed (names : List AttributeTypeAndValue) :
    ∀ p ∈ specPieces names, ∀ c ∈ p, allowedChar c = true := by
  intro p hp c hc
  rw [specPieces, List.mem_filterMap] at hp
  obtain ⟨e, _, hfe⟩ := hp
  by_cases hk : findKey e.attrType oidToKeys = []
  · simp [hk] at hfe
  · rw [if_neg hk] at hfe
    have hp' := Option.some.inj hfe
    subst hp'
    rcases List.mem_append.mp hc with hc' | hval
    · rcases List.mem_append.mp hc' with hkey | heq
      · exact findKey_allowed e.attrType oidToKeys (by decide) c hkey
      · have : c = '=' := by simpa using heq
        subst this; decide
    · obtain ⟨d, _, hd⟩ := List.mem_map.mp hval
      subst hd
      exact cleanChar_allowed d

theorem commaPieces_allowed (ps : List (List Char))
    (h : ∀ p ∈ ps, ∀ c ∈ p, allowedChar c = true) :
    ∀ c ∈ commaPieces ps, allowedChar c = true := by
  induction ps with
  | nil => intro c hc; simp [commaPieces] at hc
  | cons p rest ih =>
    intro c hc
    rw [commaPieces] at hc
    rcases List.mem_cons.mp hc with hcomma | hc'
    · subst hcomma; decide
    · rcases List.mem_append.mp hc' with hcp | hcr
      · exact h p (by simp) c hcp
      · exact ih (fun q hq => h q (List.mem_cons_of_mem _ hq)) c hcr

theorem joinComma_allowed (ps : List (List Char))
    (h : ∀ p ∈ ps, ∀ c ∈ p, allowedChar c = true) :
    ∀ c ∈ joinComma ps, allowedChar c = true := by
  match ps with
  | [] => intro c hc; simp [joinComma] at hc
  | p :: rest =>
    intro c hc
    rw [joinComma_cons_eq] at hc
    rcases List.mem_append.mp hc with hcp | hcr
    · exact h p (by simp) c hcp
    · exact commaPieces_allowed rest (fun q hq => h q (List.mem_cons_of_mem _ hq)) c hcr

theorem specPieces_all_none (names : List AttributeTypeAndValue)
    (h : ∀ e ∈ names, findKey e.attrType oidToKeys = []) :
    specPieces names = [] := by
  induction names with
  | nil => simp [specPieces]
  | cons e rest ih =>
    rw [specPieces, List.filterMap_cons]
    rw [if_pos (h e (by simp))]
    exact ih (fun q hq => h q (List.mem_cons_of_mem _ hq))

/-- C1: the identity string is built by iterating the subject's
attributes in stored order, dropping attributes whose OID is not among
the nine recognized identifiers, emitting `key=value` with every value
byte outside `[A-Za-z0-9_-]` replaced by `_`, joined by commas with no
leading or trailing separator; in particular a subject with organization
`Acme Co.` followed by common-name `test user!` derives to
`O=Acme_Co_,CN=test_user_`. -/
theorem clientId_matches_spec_and_example :
    (∀ names : List AttributeTypeAndValue,
        clientIdByName names = joinComma (specPieces names)) ∧
    clientIdByName
        [⟨[2, 5, 4, 10], "Acme Co.".data⟩, ⟨[2, 5, 4, 3], "test user!".data⟩] =
      "O=Acme_Co_,CN=test_user_".data :=
  ⟨fun names => typeValsToBytes_eq_spec names, by decide⟩

/-- C2: every byte of the identity string derived by `clientIdByName`
(`typeValsToBytes` with cleaning enabled) lies in `[A-Za-z0-9_=,-]`. -/
theorem clientId_chars_allowed (names : List AttributeTypeAndValue) :
    (clientIdByName names).all allowedChar = true := by
  rw [List.all_eq_true]
  intro c hc
  rw [clientIdByName, typeValsToBytes_eq_spec] at hc
  exact joinComma_allowed (specPieces names) (specPieces_allowed names) c hc

/-- C3: a subject with zero recognized attributes (including the empty
attribute list) derives to the empty identity string; the derivation is
a total function, so it neither panics nor errors. -/
theorem clientId_unrecognized_empty (names : List AttributeTypeAndValue)
    (h : ∀ e ∈ names, findKey e.attrType oidToKeys = []) :
    clientIdByName names = [] := by
  rw [clientIdByName, typeValsToBytes_eq_spec, specPieces_all_none names h]
  rfl

/-- Witness for C3: a concrete subject with one unrecognized attribute. -/
theorem clientId_unrecognized_empty_wit :
    (∀ e ∈ [(⟨[1, 2, 3], "x".data⟩ : AttributeTypeAndValue)],
        findKey e.attrType oidToKeys = []) ∧
    clientIdByName [(⟨[1, 2, 3], "x".data⟩ : AttributeTypeAndValue)] = [] :=
  ⟨by decide, clientId_unrecognized_empty _ (by decide)⟩

/-! ## Directory scanner (src/main.go, `ScanDirectoryForPackages`) -/

/-- A Package Record (`Ipkg`).  The record's own parsing lives in a
collaborator outside src/; only the fields the in-scope code reads are
kept: the archive filename and the raw control stanza. -/
structure Ipkg where
  name : List Char
  control : List Char
deriving DecidableEq

/-- `path.Ext`: walk backwards from the end of the path; the extension
starts at the last dot of the final path element, and is empty when that
element has no dot.  `revRest` is the not-yet-visited front of the path
in reverse, `acc` the bytes already passed over, in original order. -/
def pathExtAux : List Char → List Char → List Char
  | [], _ => []
  | c :: revRest, acc =>
    if c = '/' then []
    else if c = '.' then '.' :: acc
    else pathExtAux revRest (c :: acc)

/-- `path.Ext` over byte lists. -/
def pathExt (p : List Char) : List Char :=
  pathExtAux p.reverse []

/-- The outcome of `os.Open` plus `Readdirnames(-1)` on one directory:
either step can fail, otherwise the entry names are produced. -/
structure DirListing where
  openErr : Option (List Char)
  readErr : Option (List Char)
  entries : List (List Char)

/-- The records accumulated by the scan workers: one `(name, ipkg)` pair
per entry with extension `.ipk` whose parse (`NewIpkgFromFile`, a
collaborator parameterized here as `parse`) succeeds; parse failures are
logged and dropped. -/
def scannedRecords (entries : List (List Char)) (parse : List Char → Option Ipkg) :
    List (List Char × Ipkg) :=
  entries.filterMap (fun entry =>
    if pathExt entry = ".ipk".data then (parse entry).map (fun p => (entry, p))
    else none)

/-- `ScanDirectoryForPackages` (src/main.go lines 236-270): return an
error when opening or listing the directory fails; otherwise dispatch a
parse task per `.ipk` entry and collect the successful records.  The
concurrent map inserts are embedded as their post-drain-barrier result. -/
def ScanDirectoryForPackages (dir : DirListing) (parse : List Char → Option Ipkg) :
    Except (List Char) (List (List Char × Ipkg)) :=
  match dir.openErr with
  | some e => Except.error e
  | none =>
    match dir.readErr with
    | some e => Except.error e
    | none => Except.ok (scannedRecords dir.entries parse)

theorem scannedRecords_length (entries : List (List Char))
    (parse : List Char → Option Ipkg) :
    (scannedRecords entries parse).length =
      (entries.filter (fun n => decide (pathExt n = ".ipk".data) && (parse n).isSome)).length := by
  induction entries with
  | nil => rfl
  | cons n rest ih =>
    simp only [scannedRecords] at ih ⊢
    rw [List.filterMap_cons, List.filter_cons]
    by_cases hext : pathExt n = ".ipk".data
    · cases hp : parse n with
      | none => simp [hext, hp, ih]
      | some p => simp [hext, hp, ih]
    · simp [hext, ih]

theorem scannedRecords_mem (entries : List (List Char))
    (parse : List Char → Option Ipkg) (n : List Char) (p : Ipkg) :
    (n, p) ∈ scannedRecords entries parse ↔
      n ∈ entries ∧ pathExt n = ".ipk".data ∧ parse n = some p := by
  rw [scannedRecords, List.mem_filterMap]
  constructor
  · rintro ⟨a, ha, hfa⟩
    by_cases hext : pathExt a = ".ipk".data
    · rw [if_pos hext] at hfa
      cases hp : parse a with
      | none => rw [hp] at hfa; simp at hfa
      | some q =>
        rw [hp] at hfa
        have h1 : a = n ∧ q = p := by
          constructor
          · exact congrArg Prod.fst (Option.some.inj hfa)
          · exact congrArg Prod.snd (Option.some.inj hfa)
        obtain ⟨rfl, rfl⟩ := h1
        exact ⟨ha, hext, hp⟩
    · rw [if_neg hext] at hfa; simp at hfa
  · rintro ⟨hn, hext, hp⟩
    exact ⟨n, hn, by rw [if_pos hext, hp]; rfl⟩

/-- C4: when opening and listing the directory succeed, the scan returns
(without error) exactly one record per `.ipk` entry whose parse
succeeds, keyed by filename — parse failures only shrink the index, they
are never fatal; and the scan returns an error precisely when opening
the directory or listing its entries fails. -/
theorem scan_directory_records (dir : DirListing) (parse : List Char → Option Ipkg) :
    (dir.openErr = none → dir.readErr = none →
      ScanDirectoryForPackages dir parse = Except.ok (scannedRecords dir.entries parse) ∧
      (scannedRecords dir.entries parse).length =
        (dir.entries.filter
          (fun n => decide (pathExt n = ".ipk".data) && (parse n).isSome)).length ∧
      (∀ n p, (n, p) ∈ scannedRecords dir.entries parse ↔
        n ∈ dir.entries ∧ pathExt n = ".ipk".data ∧ parse n = some p)) ∧
    ((∃ e, ScanDirectoryForPackages dir parse = Except.error e) ↔
      dir.openErr ≠ none ∨ dir.readErr ≠ none) := by
  constructor
  · intro ho hr
    refine ⟨?_, scannedRecords_length dir.entries parse,
      fun n p => scannedRecords_mem dir.entries parse n p⟩
    rw [ScanDirectoryForPackages, ho, hr]
  · constructor
    · rintro ⟨e, he⟩
      rw [ScanDirectoryForPackages] at he
      cases hoe : dir.openErr with
      | some e' => exact Or.inl (by simp [hoe])
      | none =>
        rw [hoe] at he
        cases hre : dir.readErr with
        | some e' => exact Or.inr (by simp [hre])
        | none => rw [hre] at he; exact absurd he (by simp)
    · intro h
      rw [ScanDirectoryForPackages]
      cases hoe : dir.openErr with
      | some e' => exact ⟨e', rfl⟩
      | none =>
        cases hre : dir.readErr with
        | some e' => exact ⟨e', rfl⟩
        | none => rw [hoe, hre] at h; simp at h

/-- Witness for C4: a directory listing with one parsable `.ipk` file,
one malformed `.ipk` file and one non-package file scans to a one-record
index, and a listing failure is surfaced as an error. -/
theorem scan_directory_records_wit :
    ((⟨none, none, ["a_1.0.ipk".data, "broken.ipk".data, "README".data]⟩ :
        DirListing).openErr = none ∧
     ScanDirectoryForPackages
        ⟨none, none, ["a_1.0.ipk".data, "broken.ipk".data, "README".data]⟩
        (fun n => if n = "a_1.0.ipk".data then some ⟨n, "Package: a".data⟩ else none) =
      Except.ok [("a_1.0.ipk".data, ⟨"a_1.0.ipk".data, "Package: a".data⟩)]) ∧
    (∃ e, ScanDirectoryForPackages (⟨some "EACCES".data, none, []⟩ : DirListing)
        (fun _ => none) = Except.error e) := by
  refine ⟨⟨rfl, ?_⟩, ?_⟩
  · have h := (scan_directory_records
      ⟨none, none, ["a_1.0.ipk".data, "broken.ipk".data, "README".data]⟩
      (fun n => if n = "a_1.0.ipk".data then some ⟨n, "Package: a".data⟩ else none)).1
      rfl rfl
    rw [h.1]
    rfl
  · exact ((scan_directory_records (⟨some "EACCES".data, none, []⟩ : DirListing)
      (fun _ => none)).2).mpr (Or.inl (by simp))

/-! ## Index compression and the Packages handlers (src/x509.go,
`AttachHttpHandler`) -/

/-- Prepend one byte to already-encoded run-length groups, merging into
the first group when it holds the same byte and is not yet full. -/
def rleStep (c : Char) : List (Nat × Char) → List (Nat × Char)
  | [] => [(1, c)]
  | (n, d) :: t => if c = d ∧ n < 255 then (n + 1, d) :: t else (1, c) :: (n, d) :: t

/-- Run-length groups of a byte string, with runs capped at 255 so each
length fits in one byte. -/
def rleEncode : List Char → List (Nat × Char)
  | [] => []
  | c :: rest => rleStep c (rleEncode rest)

/-- Expand run-length groups back into bytes. -/
def rleDecode : List (Nat × Char) → List Char
  | [] => []
  | (n, c) :: t => List.replicate n c ++ rleDecode t

/-- Serialize run-length groups as alternating count and data bytes. -/
def pairsToBytes : List (Nat × Char) → List Char
  | [] => []
  | (n, c) :: t => Char.ofNat n :: c :: pairsToBytes t

/-- Read back alternating count and data bytes. -/
def bytesToPairs : List Char → List (Nat × Char)
  | c1 :: c2 :: t => (c1.toNat, c2) :: bytesToPairs t
  | _ => []

/-- Modelled from the spec: the pluggable compressor (the `Gzipper`
implementations `GzGolang` and `GzGzipPipe` are repository code not
under src/).  The spec requires a lossless gzip-style encoder whose
output decompresses to byte-identical content; it is modelled as a
run-length coder over bytes. -/
def GzGolang (data : List Char) : List Char :=
  pairsToBytes (rleEncode data)

/-- Modelled from the spec: the matching decompressor ("decompressing
the compressed index yields byte-identical content to the plain
index"). -/
def gunzipBytes (data : List Char) : List Char :=
  rleDecode (bytesToPairs data)

theorem char_ofNat_toNat (n : Nat) (h : n ≤ 255) : (Char.ofNat n).toNat = n := by
  have hv : n.isValidChar := Or.inl (by omega)
  rw [Char.ofNat, dif_pos hv]
  rfl

theorem rleEncode_bounds (l : List Char) :
    ∀ p ∈ rleEncode l, 1 ≤ p.1 ∧ p.1 ≤ 255 := by
  induction l with
  | nil => intro p hp; simp [rleEncode] at hp
  | cons c rest ih =>
    intro p hp
    rw [rleEncode] at hp
    cases henc : rleEncode rest with
    | nil =>
      rw [henc, rleStep] at hp
      have hp' : p = (1, c) := by simpa using hp
      subst hp'
      exact ⟨Nat.le_refl 1, by omega⟩
    | cons q t =>
      obtain ⟨n, d⟩ := q
      rw [henc, rleStep] at hp
      by_cases hc : c = d ∧ n < 255
      · rw [if_pos hc] at hp
        rcases List.mem_cons.mp hp with hphead | hpt
        · have hnd := ih (n, d) (by rw [henc]; simp)
          subst hphead
          exact ⟨by omega, by omega⟩
        · exact ih p (by rw [henc]; exact List.mem_cons_of_mem _ hpt)
      · rw [if_neg hc] at hp
        rcases List.mem_cons.mp hp with hphead | hp'
        · subst hphead; exact ⟨Nat.le_refl 1, by omega⟩
        · exact ih p (by rw [henc]; exact hp')

theorem rleDecode_encode (l : List Char) : rleDecode (rleEncode l) = l := by
  induction l with
  | nil => rfl
  | cons c rest ih =>
    rw [rleEncode]
    cases henc : rleEncode rest with
    | nil =>
      rw [rleStep]
      rw [henc] at ih
      simp only [rleDecode] at ih
      simp [rleDecode, ← ih]
    | cons q t =>
      obtain ⟨n, d⟩ := q
      rw [rleStep]
      rw [henc] at ih
      simp only [rleDecode] at ih
      by_cases hc : c = d ∧ n < 255
      · rw [if_pos hc]
        obtain ⟨rfl, _⟩ := hc
        simp only [rleDecode, List.replicate_succ, List.cons_append]
        rw [ih]
      · rw [if_neg hc]
        simp only [rleDecode, List.replicate_one, List.singleton_append, List.cons_append]
        rw [ih]
        simp

theorem bytesToPairs_pairsToBytes (ps : List (Nat × Char))
    (h : ∀ p ∈ ps, p.1 ≤ 255) :
    bytesToPairs (pairsToBytes ps) = ps := by
  induction ps with
  | nil => rfl
  | cons q t ih =>
    obtain ⟨n, c⟩ := q
    rw [pairsToBytes, bytesToPairs]
    rw [char_ofNat_toNat n (h (n, c) (by simp))]
    rw [ih (fun p hp => h p (List.mem_cons_of_mem _ hp))]

theorem gunzip_gz (l : List Char) : gunzipBytes (GzGolang l) = l := by
  rw [GzGolang, gunzipBytes,
    bytesToPairs_pairsToBytes _ (fun p hp => (rleEncode_bounds l p hp).2),
    rleDecode_encode]

/-- The three buffers `AttachHttpHandler` (src/x509.go lines 218-227)
fills exactly once when the handlers are attached: the serialized plain
index (`packages.StringTo`), its compressed form (`gzipper` applied to
those very bytes), and the checksum stamps (`packages.StampsTo`). -/
structure AttachedBuffers where
  packages_content : List Char
  packages_content_gz : List Char
  packages_stamps : List Char
deriving DecidableEq

/-- The buffer-filling prologue of `AttachHttpHandler`, parameterized by
the serialized outputs of the index (produced by collaborator code not
under src/) and by the configured compressor. -/
def attachHttpHandlerBuffers (stringToOut stampsToOut : List Char)
    (gzipper : List Char → List Char) : AttachedBuffers :=
  { packages_content := stringToOut,
    packages_content_gz := gzipper stringToOut,
    packages_stamps := stampsToOut }

/-- `strings.Contains` over byte lists: some suffix of `s` starts with
`sub`. -/
def containsSub : List Char → List Char → Bool
  | [], sub => sub.isEmpty
  | c :: rest, sub => sub.isPrefixOf (c :: rest) || containsSub rest sub

/-- The parts of an HTTP response the in-scope handlers determine: the
body bytes and the headers they explicitly set. -/
structure HttpResponse where
  body : List Char
  contentEncoding : Option (List Char)
  contentType : Option (List Char)
deriving DecidableEq

/-- `packages_handler` (src/x509.go lines 229-237): serve the plain
index bytes when the request's Accept-Encoding does not mention gzip;
otherwise set Content-Type and Content-Encoding and serve the
compressed bytes. -/
def packages_handler (bufs : AttachedBuffers) (acceptEncoding : List Char) :
    HttpResponse :=
  if containsSub acceptEncoding "gzip".data = false then
    { body := bufs.packages_content, contentEncoding := none, contentType := none }
  else
    { body := bufs.packages_content_gz,
      contentEncoding := some "gzip".data,
      contentType := some "text/plain".data }

/-- C5: on the plain index path, a request whose Accept-Encoding
mentions gzip receives the compressed index bytes with a
`Content-Encoding: gzip` header, and a request without it receives the
plain index bytes with no such header; the two bodies carry the same
logical content, as the compressed one decompresses to the plain one. -/
theorem packages_handler_content (plainOut stampsOut acceptEncoding : List Char) :
    (containsSub acceptEncoding "gzip".data = true →
      packages_handler (attachHttpHandlerBuffers plainOut stampsOut GzGolang)
          acceptEncoding =
        { body := GzGolang plainOut,
          contentEncoding := some "gzip".data,
          contentType := some "text/plain".data } ∧
      gunzipBytes (packages_handler (attachHttpHandlerBuffers plainOut stampsOut GzGolang)
          acceptEncoding).body = plainOut) ∧
    (containsSub acceptEncoding "gzip".data = false →
      packages_handler (attachHttpHandlerBuffers plainOut stampsOut GzGolang)
          acceptEncoding =
        { body := plainOut, contentEncoding := none, contentType := none }) := by
  constructor
  · intro hae
    have hne : ¬(containsSub acceptEncoding "gzip".data = false) := by rw [hae]; simp
    rw [packages_handler, if_neg hne]
    exact ⟨rfl, gunzip_gz plainOut⟩
  · intro hae
    rw [packages_handler, if_pos hae]
    rfl

/-- Witness for C5: a concrete plain index served to one request with
`Accept-Encoding: gzip` and one without. -/
theorem packages_handler_content_wit :
    (containsSub "deflate, gzip".data "gzip".data = true ∧
      packages_handler
          (attachHttpHandlerBuffers "Package: a".data [] GzGolang)
          "deflate, gzip".data =
        { body := GzGolang "Package: a".data,
          contentEncoding := some "gzip".data,
          contentType := some "text/plain".data }) ∧
    (containsSub "identity".data "gzip".data = false ∧
      packages_handler
          (attachHttpHandlerBuffers "Package: a".data [] GzGolang)
          "identity".data =
        { body := "Package: a".data, contentEncoding := none, contentType := none }) :=
  ⟨⟨by decide,
    ((packages_handler_content "Package: a".data [] "deflate, gzip".data).1
      (by decide)).1⟩,
   ⟨by decide,
    (packages_handler_content "Package: a".data [] "identity".data).2 (by decide)⟩⟩

/-- C6: the compressed index buffer built at handler-attachment time
decompresses to exactly the plain index buffer built from the same
frozen index. -/
theorem attach_buffers_gzip_roundtrip (plainOut stampsOut : List Char) :
    gunzipBytes
        (attachHttpHandlerBuffers plainOut stampsOut GzGolang).packages_content_gz =
      (attachHttpHandlerBuffers plainOut stampsOut GzGolang).packages_content :=
  gunzip_gz plainOut

/-! ## Root walk: static file server or full repository handler
(src/main.go, `filepath.Walk` callback) -/

/-- The kind of handler registered on the root muxer for one pattern. -/
inductive HandlerKind where
  | staticFiles (dir : List Char)
  | indexPage
  | packagesDoc
  | packagesGzDoc
  | packagesStampsDoc
deriving DecidableEq

/-- The four registrations `AttachHttpHandler` performs on the muxer
(src/x509.go lines 290-294). -/
def attachHttpHandlerPatterns (pfx : List Char) : List (List Char × HandlerKind) :=
  [(pfx ++ "/".data, HandlerKind.indexPage),
   (pfx ++ "/Packages".data, HandlerKind.packagesDoc),
   (pfx ++ "/Packages.gz".data, HandlerKind.packagesGzDoc),
   (pfx ++ "/Packages.stamps".data, HandlerKind.packagesStampsDoc)]

/-- `muxPath := path[len(*rootName):]`, coerced to `/` when empty
(src/main.go lines 194-197). -/
def muxPathOf (rootName p : List Char) : List Char :=
  if p.drop rootName.length = [] then "/".data else p.drop rootName.length

/-- The per-directory body of the `filepath.Walk` callback (src/main.go
lines 173-210), from the point where the directory's scan result is
known: a failed scan registers nothing, a scan with zero records
registers a plain static file server at the relative path, and a scan
with records attaches the full repository handler set there. -/
def walkDirHandlers (rootName p : List Char)
    (scan : Except (List Char) (List (List Char × Ipkg))) :
    List (List Char × HandlerKind) :=
  match scan with
  | Except.error _ => []
  | Except.ok pkgs =>
    if pkgs.length = 0 then [(muxPathOf rootName p, HandlerKind.staticFiles p)]
    else attachHttpHandlerPatterns (muxPathOf rootName p)

/-- C7: a directory whose scan yields zero records is registered as a
plain static file server at its relative path, and a directory whose
scan yields at least one record gets the full repository handler set
(index page, Packages, Packages.gz, Packages.stamps) attached at its
relative path. -/
theorem walk_static_or_full (rootName p : List Char)
    (scan : Except (List Char) (List (List Char × Ipkg)))
    (pkgs : List (List Char × Ipkg)) (hscan : scan = Except.ok pkgs) :
    (pkgs = [] →
      walkDirHandlers rootName p scan =
        [(muxPathOf rootName p, HandlerKind.staticFiles p)]) ∧
    (pkgs ≠ [] →
      walkDirHandlers rootName p scan =
        [(muxPathOf rootName p ++ "/".data, HandlerKind.indexPage),
         (muxPathOf rootName p ++ "/Packages".data, HandlerKind.packagesDoc),
         (muxPathOf rootName p ++ "/Packages.gz".data, HandlerKind.packagesGzDoc),
         (muxPathOf rootName p ++ "/Packages.stamps".data,
           HandlerKind.packagesStampsDoc)]) := by
  subst hscan
  constructor
  · intro hnil
    subst hnil
    rfl
  · intro hne
    rw [walkDirHandlers]
    rw [if_neg (by simpa using List.length_pos.mpr hne |>.ne')]
    rfl

/-- Witness for C7: a package-less directory and a one-package
directory under root `/srv`. -/
theorem walk_static_or_full_wit :
    (walkDirHandlers "/srv".data "/srv/docs".data
        (Except.ok []) =
      [("/docs".data, HandlerKind.staticFiles "/srv/docs".data)]) ∧
    (walkDirHandlers "/srv".data "/srv/feed".data
        (Except.ok [("a.ipk".data, ⟨"a.ipk".data, []⟩)]) =
      [("/feed/".data, HandlerKind.indexPage),
       ("/feed/Packages".data, HandlerKind.packagesDoc),
       ("/feed/Packages.gz".data, HandlerKind.packagesGzDoc),
       ("/feed/Packages.stamps".data, HandlerKind.packagesStampsDoc)]) := by
  constructor
  · have h := (walk_static_or_full "/srv".data "/srv/docs".data
      (Except.ok []) [] rfl).1 rfl
    rw [h]
    decide
  · have h := (walk_static_or_full "/srv".data "/srv/feed".data
      (Except.ok [("a.ipk".data, ⟨"a.ipk".data, []⟩)])
      [("a.ipk".data, ⟨"a.ipk".data, []⟩)] rfl).2 (by decide)
    rw [h]
    decide

/-! ## The per-directory index handler (src/x509.go, `index_handler`) -/

/-- `path.Base`: strip trailing slashes, then keep everything after the
last slash; `.` for the empty path and `/` when nothing remains. -/
def pathBase (p : List Char) : List Char :=
  if p = [] then ".".data
  else
    if ((p.reverse.dropWhile (fun c => c = '/')).takeWhile (fun c => ¬(c = '/'))).reverse
        = [] then
      "/".data
    else
      ((p.reverse.dropWhile (fun c => c = '/')).takeWhile (fun c => ¬(c = '/'))).reverse

/-- Lookup in the `packages.Entries` map, embedded as an association
list keyed by archive filename. -/
def lookupPkg (k : List Char) : List (List Char × Ipkg) → Option Ipkg
  | [] => none
  | (n, p) :: rest => if n = k then some p else lookupPkg k rest

/-- What the closure returned by `index_handler` (src/x509.go lines
267-287) does with one request, by case on the URL path. -/
inductive IndexResponse where
  | controlBody (body : List Char)
  | notFound
  | htmlIndex (gzipped : Bool)
  | fileServe (root urlPath : List Char)
deriving DecidableEq

/-- The request dispatch of `index_handler`: a path ending in
`.control` is answered with the named package's control stanza or
not-found; the directory path itself renders the HTML index (gzipped
under gzip Accept-Encoding); anything else is served from disk. -/
def index_handler (pfx root : List Char) (entries : List (List Char × Ipkg))
    (urlPath acceptEncoding : List Char) : IndexResponse :=
  if ".control".data.isSuffixOf urlPath then
    match lookupPkg (pathBase (urlPath.take (urlPath.length - 8))) entries with
    | none => IndexResponse.notFound
    | some ipkg => IndexResponse.controlBody ipkg.control
  else if urlPath = pfx ∨ urlPath = pfx ++ "/".data then
    IndexResponse.htmlIndex (containsSub acceptEncoding "gzip".data)
  else
    IndexResponse.fileServe root urlPath

/-- C8: for a request path ending in `.control`, if the base filename
(path minus the suffix) names a package of the frozen index the
response body is exactly that package's control stanza, and otherwise
the response is not-found; the dispatch is a total function, so the
server does not crash. -/
theorem control_request_dispatch (pfx root : List Char)
    (entries : List (List Char × Ipkg)) (urlPath acceptEncoding : List Char)
    (hctl : ".control".data.isSuffixOf urlPath = true) :
    (∀ ipkg, lookupPkg (pathBase (urlPath.take (urlPath.length - 8))) entries
        = some ipkg →
      index_handler pfx root entries urlPath acceptEncoding =
        IndexResponse.controlBody ipkg.control) ∧
    (lookupPkg (pathBase (urlPath.take (urlPath.length - 8))) entries = none →
      index_handler pfx root entries urlPath acceptEncoding =
        IndexResponse.notFound) := by
  constructor
  · intro ipkg hfound
    rw [index_handler, if_pos hctl, hfound]
  · intro hmiss
    rw [index_handler, if_pos hctl, hmiss]

/-- Witness for C8: a one-package index answers `/foo.ipk.control` with
the stanza and `/bar.ipk.control` with not-found. -/
theorem control_request_dispatch_wit :
    (".control".data.isSuffixOf "/foo.ipk.control".data = true ∧
      index_handler "/".data "/srv".data
          [("foo.ipk".data, ⟨"foo.ipk".data, "Package: foo".data⟩)]
          "/foo.ipk.control".data [] =
        IndexResponse.controlBody "Package: foo".data) ∧
    index_handler "/".data "/srv".data
        [("foo.ipk".data, ⟨"foo.ipk".data, "Package: foo".data⟩)]
        "/bar.ipk.control".data [] =
      IndexResponse.notFound :=
  ⟨⟨by decide,
    (control_request_dispatch "/".data "/srv".data
        [("foo.ipk".data, ⟨"foo.ipk".data, "Package: foo".data⟩)]
        "/foo.ipk.control".data [] (by decide)).1
      ⟨"foo.ipk".data, "Package: foo".data⟩ (by decide)⟩,
   (control_request_dispatch "/".data "/srv".data
        [("foo.ipk".data, ⟨"foo.ipk".data, "Package: foo".data⟩)]
        "/bar.ipk.control".data [] (by decide)).2 (by decide)⟩

/-! ## Bounded worker pool (src/main.go, `WorkerPool`)

The pool is a buffered channel of capacity `limit` plus a wait group.
`Hire` is the channel send followed by `Add(1)`, `Release` is `Done()`
followed by the channel receive, and `Wait` returns once the wait-group
counter is zero.  Its concurrency is embedded as a step relation on the
channel occupancy and wait-group counter; a task holds a pool slot from
the completed send until its receive, so the number of unblocked hired
tasks at any instant is the channel occupancy. -/

/-- Channel occupancy (`len(pool.worker)`) and wait-group counter. -/
structure PoolState where
  chanLen : Nat
  wg : Nat
deriving DecidableEq

/-- The four atomic operations a `Hire`/`Release` pair performs. -/
inductive PoolOp where
  | hireSend
  | hireAdd
  | releaseDone
  | releaseRecv
deriving DecidableEq

/-- One atomic step: `none` when the operation blocks in that state.  A
send into the buffered channel blocks while it is full; a receive
blocks while it is empty; `Done` below zero cannot occur in a valid
execution. -/
def poolStep (limit : Nat) (s : PoolState) : PoolOp → Option PoolState
  | PoolOp.hireSend =>
    if s.chanLen < limit then some { s with chanLen := s.chanLen + 1 } else none
  | PoolOp.hireAdd => some { s with wg := s.wg + 1 }
  | PoolOp.releaseDone =>
    if 0 < s.wg then some { s with wg := s.wg - 1 } else none
  | PoolOp.releaseRecv =>
    if 0 < s.chanLen then some { s with chanLen := s.chanLen - 1 } else none

/-- Run one interleaving of pool operations from a state. -/
def runPool (limit : Nat) : PoolState → List PoolOp → Option PoolState
  | s, [] => some s
  | s, op :: ops =>
    match poolStep limit s op with
    | none => none
    | some s2 => runPool limit s2 ops

/-- Occurrences of one operation in a trace. -/
def countOp (op : PoolOp) : List PoolOp → Nat
  | [] => 0
  | o :: rest => (if o = op then 1 else 0) + countOp op rest

/-- `Wait()` returns exactly when the wait-group counter is zero. -/
def waitReturns (s : PoolState) : Prop :=
  s.wg = 0

theorem poolStep_chanLen_le (limit : Nat) (s : PoolState) (op : PoolOp)
    (s2 : PoolState) (hle : s.chanLen ≤ limit) (h : poolStep limit s op = some s2) :
    s2.chanLen ≤ limit := by
  cases op with
  | hireSend =>
    rw [poolStep] at h
    by_cases hc : s.chanLen < limit
    · rw [if_pos hc] at h
      cases h
      simpa using hc
    · rw [if_neg hc] at h; cases h
  | hireAdd =>
    rw [poolStep] at h
    cases h
    simpa using hle
  | releaseDone =>
    rw [poolStep] at h
    by_cases hc : 0 < s.wg
    · rw [if_pos hc] at h
      cases h
      simpa using hle
    · rw [if_neg hc] at h; cases h
  | releaseRecv =>
    rw [poolStep] at h
    by_cases hc : 0 < s.chanLen
    · rw [if_pos hc] at h
      cases h
      simp only
      omega
    · rw [if_neg hc] at h; cases h

theorem runPool_chanLen_le (limit : Nat) (ops : List PoolOp) :
    ∀ s s2 : PoolState, s.chanLen ≤ limit →
      runPool limit s ops = some s2 → s2.chanLen ≤ limit := by
  induction ops with
  | nil =>
    intro s s2 hle h
    rw [runPool] at h
    cases h
    exact hle
  | cons op rest ih =>
    intro s s2 hle h
    rw [runPool] at h
    cases hstep : poolStep limit s op with
    | none => rw [hstep] at h; cases h
    | some smid =>
      rw [hstep] at h
      exact ih smid s2 (poolStep_chanLen_le limit s op smid hle hstep) h

theorem poolStep_wg (limit : Nat) (s : PoolState) (op : PoolOp) (s2 : PoolState)
    (h : poolStep limit s op = some s2) :
    s2.wg + (if op = PoolOp.releaseDone then 1 else 0) =
      s.wg + (if op = PoolOp.hireAdd then 1 else 0) := by
  cases op with
  | hireSend =>
    rw [poolStep] at h
    by_cases hc : s.chanLen < limit
    · rw [if_pos hc] at h; cases h; simp
    · rw [if_neg hc] at h; cases h
  | hireAdd =>
    rw [poolStep] at h
    cases h
    simp
  | releaseDone =>
    rw [poolStep] at h
    by_cases hc : 0 < s.wg
    · rw [if_pos hc] at h
      cases h
      rw [if_pos rfl, if_neg (by decide)]
      dsimp only
      omega
    · rw [if_neg hc] at h; cases h
  | releaseRecv =>
    rw [poolStep] at h
    by_cases hc : 0 < s.chanLen
    · rw [if_pos hc] at h; cases h; simp
    · rw [if_neg hc] at h; cases h

theorem runPool_wg (limit : Nat) (ops : List PoolOp) :
    ∀ s s2 : PoolState, runPool limit s ops = some s2 →
      s2.wg + countOp PoolOp.releaseDone ops =
        s.wg + countOp PoolOp.hireAdd ops := by
  induction ops with
  | nil =>
    intro s s2 h
    rw [runPool] at h
    cases h
    rfl
  | cons op rest ih =>
    intro s s2 h
    rw [runPool] at h
    cases hstep : poolStep limit s op with
    | none => rw [hstep] at h; cases h
    | some smid =>
      rw [hstep] at h
      have h1 := poolStep_wg limit s op smid hstep
      have h2 := ih smid s2 h
      rw [countOp, countOp]
      omega

/-- C9: in every interleaving of pool operations from the empty pool,
the number of hired-and-unblocked tasks (slots held in the channel)
never exceeds the pool limit — a further `Hire` send blocks while the
pool is full — and once the trace contains a matching `Release` `Done`
for every `Hire` `Add`, the wait-group counter is zero, so a subsequent
`Wait()` returns. -/
theorem worker_pool_bound_and_drain (limit : Nat) (ops : List PoolOp)
    (s2 : PoolState) (hrun : runPool limit ⟨0, 0⟩ ops = some s2) :
    s2.chanLen ≤ limit ∧
    (∀ s : PoolState, limit ≤ s.chanLen →
      poolStep limit s PoolOp.hireSend = none) ∧
    (countOp PoolOp.hireAdd ops = countOp PoolOp.releaseDone ops →
      waitReturns s2) := by
  refine ⟨runPool_chanLen_le limit ops ⟨0, 0⟩ s2 (by simp) hrun, ?_, ?_⟩
  · intro s hfull
    rw [poolStep, if_neg (by omega)]
  · intro hbal
    have h := runPool_wg limit ops ⟨0, 0⟩ s2 hrun
    rw [waitReturns]
    simp only at h
    omega

/-- Witness for C9: a pool of limit 1 with two hired tasks; the second
send happens only after the first slot is released, and the drained
trace ends with the wait group at zero. -/
theorem worker_pool_bound_and_drain_wit :
    runPool 1 ⟨0, 0⟩
        [PoolOp.hireSend, PoolOp.hireAdd, PoolOp.releaseDone, PoolOp.releaseRecv,
         PoolOp.hireSend, PoolOp.hireAdd, PoolOp.releaseDone, PoolOp.releaseRecv] =
      some ⟨0, 0⟩ ∧
    (0 ≤ 1 ∧ waitReturns ⟨0, 0⟩) := by
  have h := worker_pool_bound_and_drain 1
    [PoolOp.hireSend, PoolOp.hireAdd, PoolOp.releaseDone, PoolOp.releaseRecv,
     PoolOp.hireSend, PoolOp.hireAdd, PoolOp.releaseDone, PoolOp.releaseRecv]
    ⟨0, 0⟩ (by decide)
  exact ⟨by decide, ⟨h.1, h.2.2 (by decide)⟩⟩

/-! ## Offline client-id printing (src/x509.go, `printClientIdTo`) -/

/-- One PEM block as `pem.Decode` yields it. -/
structure PemBlock where
  blockType : List Char
  headers : List (List Char × List Char)
  bytes : List Char

/-- The `pem.Decode` loop of `printClientIdTo`: skip blocks that are
not of type CERTIFICATE or that carry headers; stop at the first
qualifying block. -/
def findCertBlock : List PemBlock → Option PemBlock
  | [] => none
  | b :: rest =>
    if b.blockType = "CERTIFICATE".data ∧ b.headers = [] then some b
    else findCertBlock rest

/-- `printClientIdTo` (src/x509.go lines 21-56), embedded as a function
from the file-read outcome (the decoded PEM blocks) and the X.509
parser (a collaborator, parameterized) to either an error or the bytes
written to the output writer.  When the first qualifying block fails to
parse the code returns `nil` without writing; when it parses, the
derived client id plus a newline is written; a file without a
qualifying block is an error. -/
def printClientIdTo (fileBlocks : Except (List Char) (List PemBlock))
    (parseCertificate : List Char → Except (List Char) (List AttributeTypeAndValue)) :
    Except (List Char) (List Char) :=
  match fileBlocks with
  | Except.error e => Except.error e
  | Except.ok blocks =>
    match findCertBlock blocks with
    | none => Except.error "cert file does not contain a certificate".data
    | some b =>
      match parseCertificate b.bytes with
      | Except.error _ => Except.ok []
      | Except.ok subject => Except.ok (clientIdByName subject ++ ['\n'])

/-- C10: when the qualifying CERTIFICATE block of the file fails to
parse as an X.509 certificate, `printClientIdTo` reports success and
writes nothing — the parse failure is swallowed instead of surfaced. -/
theorem print_client_id_swallows_parse_failure
    (blocks : List PemBlock)
    (parseCertificate : List Char → Except (List Char) (List AttributeTypeAndValue))
    (b : PemBlock) (e : List Char)
    (hfind : findCertBlock blocks = some b)
    (hparse : parseCertificate b.bytes = Except.error e) :
    printClientIdTo (Except.ok blocks) parseCertificate = Except.ok [] := by
  rw [printClientIdTo]
  simp only [hfind, hparse]

/-- Witness for C10: a file holding a single CERTIFICATE block whose
bytes the parser rejects yields success with empty output. -/
theorem print_client_id_swallows_parse_failure_wit :
    findCertBlock [⟨"CERTIFICATE".data, [], "garbage".data⟩] =
      some ⟨"CERTIFICATE".data, [], "garbage".data⟩ ∧
    printClientIdTo (Except.ok [⟨"CERTIFICATE".data, [], "garbage".data⟩])
        (fun _ => Except.error "asn1: structure error".data) =
      Except.ok [] := by
  constructor
  · rw [findCertBlock, if_pos (by exact ⟨rfl, rfl⟩)]
  · exact print_client_id_swallows_parse_failure
      [⟨"CERTIFICATE".data, [], "garbage".data⟩]
      (fun _ => Except.error "asn1: structure error".data)
      ⟨"CERTIFICATE".data, [], "garbage".data⟩ "asn1: structure error".data
      (by rw [findCertBlock, if_pos (by exact ⟨rfl, rfl⟩)]) rfl

end Kellner
